import Mathlib

/-!
Shallow embedding of `src/advanced-vector/vector.h`: the dynamic array
`Vector<T>` built on the raw storage block `RawMemory<T>`.

The observable state of a vector is the ordered list of live elements in
slots `[0, size_)` together with `data_.Capacity()`.  Element values are
modelled as natural numbers.  Operations are translated from the source
member functions; where an element constructor may throw, a fuel-counted
variant models the exception paths: the constructions attempted by the
call are numbered in execution order, the first `fuel` attempts succeed
and the next one throws.
-/

namespace AdvVec

/-- Element values stored in the vector. -/
abbrev Elem := Nat

/-- Observable state of `Vector<T>`: `elems` lists the live elements held
in slots `[0, size_)` in order; `cap` is `data_.Capacity()`. -/
structure Vec where
  elems : List Elem
  cap : Nat
deriving Repr, DecidableEq

/-- `Vector()` — default constructor: size 0, capacity 0. -/
def Vec.empty : Vec := ⟨[], 0⟩

/-- `Size()`. -/
def Vec.size (v : Vec) : Nat := v.elems.length

/-- Capacity picked by every reallocating path:
`size_ == 0 ? 1 : size_ * 2`. -/
def grownCapacity (size : Nat) : Nat := if size = 0 then 1 else size * 2

/-- `Vector(size_t size)` — sized constructor: capacity `size`, `size`
value-initialized elements. -/
def Vec.sized (n : Nat) : Vec := ⟨List.replicate n 0, n⟩

/-- `Vector(const Vector&)` — copy constructor: capacity `other.size_`,
elements copied. -/
def Vec.copy (v : Vec) : Vec := ⟨v.elems, v.elems.length⟩

/-- `Swap(Vector&)` — exchanges the raw blocks and sizes; the pair is
(state of `*this` afterwards, state of `other` afterwards). -/
def Vec.swapOp (a b : Vec) : Vec × Vec := (b, a)

/-- `Vector(Vector&&)` — default-initializes the new vector, then
`Swap(other)`.  First component: the new vector; second: `other`
afterwards. -/
def Vec.moveCtor (a : Vec) : Vec × Vec := Vec.swapOp Vec.empty a

/-- `Reserve(capacity)` — reallocates only when `capacity > data_.Capacity()`. -/
def Vec.reserve (v : Vec) (c : Nat) : Vec :=
  if c > v.cap then ⟨v.elems, c⟩ else v

/-- `Resize(new_size)` — grows via `Reserve` plus value-construction of the
new tail, or destroys the surplus tail. -/
def Vec.resize (v : Vec) (n : Nat) : Vec :=
  if n > v.size then
    let r := v.reserve n
    ⟨r.elems ++ List.replicate (n - v.size) 0, r.cap⟩
  else ⟨v.elems.take n, v.cap⟩

/-- `PushBack(value)` / `EmplaceBack(args...)`, successful path, together
with whether the call allocated a new block.  At `size_ == Capacity()` the
new element is constructed at slot `size_` of a fresh block of
`grownCapacity size_` slots, the old elements are migrated into slots
`[0, size_)`, the old ones destroyed and the blocks swapped; otherwise the
element is constructed in place at slot `size_`. -/
def Vec.pushBackR (v : Vec) (x : Elem) : Vec × Bool :=
  if v.size = v.cap then
    (⟨v.elems ++ [x], grownCapacity v.size⟩, true)
  else
    (⟨v.elems ++ [x], v.cap⟩, false)

/-- `PushBack(value)` — the resulting state. -/
def Vec.pushBack (v : Vec) (x : Elem) : Vec := (v.pushBackR x).1

/-- `PopBack()` — destroys the last live element.  Precondition
`size_ != 0` is tracked at the use sites. -/
def Vec.popBack (v : Vec) : Vec := ⟨v.elems.dropLast, v.cap⟩

/-- Net effect of `std::move_backward(b + i, b + (i + len), b + (i + 1 + len))`
on a buffer `b`: the slots `[i, i + len)` are copied one slot to the right,
everything else keeps its value. -/
def moveBackOne (b : List Elem) (i len : Nat) : List Elem :=
  b.take (i + 1) ++ (b.drop i).take len ++ b.drop (i + 1 + len)

/-- `Emplace` at `size_ < Capacity()` with `pos != end()`: build a
temporary from the arguments, move-construct `*(end() - 1)` into slot
`size_`, `std::move_backward(begin() + index, end() - 1, end())`, then
move-assign the temporary into slot `index`. -/
def emplaceMiddle (elems : List Elem) (i : Nat) (x : Elem) : List Elem :=
  let b := elems ++ [elems.getLastD 0]
  (moveBackOne b i (elems.length - 1 - i)).set i x

/-- `Emplace(pos, args...)` — successful path; `i = pos - begin()`.
Returns the final state and the index of the returned iterator
`begin() + index`.  In the reallocating branch the slots `[0, i)` of the
old block are migrated first, the new element is constructed at slot `i`
of the new block, then `[i, size_)` is migrated into the following slots. -/
def Vec.emplace (v : Vec) (i : Nat) (x : Elem) : Vec × Nat :=
  if v.size < v.cap then
    if i = v.size then (⟨v.elems ++ [x], v.cap⟩, i)
    else (⟨emplaceMiddle v.elems i x, v.cap⟩, i)
  else
    (⟨v.elems.take i ++ [x] ++ v.elems.drop i, grownCapacity v.size⟩, i)

/-- `Insert(pos, value)` — forwards to `Emplace`. -/
def Vec.insert (v : Vec) (i : Nat) (x : Elem) : Vec × Nat := v.emplace i x

/-- Net effect of `std::move(b + (i + 1), b + size, b + i)` on a buffer `b`:
slots `[i + 1, size)` are copied one slot to the left; the last slot keeps
its old (now moved-from) value. -/
def moveLeftOne (b : List Elem) (i : Nat) : List Elem :=
  b.take i ++ b.drop (i + 1) ++ [b.getLastD 0]

/-- `Erase(pos)` — shifts `[pos + 1, end())` one slot left by move
assignment, destroys the last slot, decrements `size_`; returns the final
state and the index of the returned iterator. -/
def Vec.erase (v : Vec) (i : Nat) : Vec × Nat :=
  (⟨(moveLeftOne v.elems i).dropLast, v.cap⟩, i)

/-- `operator=(const Vector&)` — successful path: copy-and-swap when
`rhs.size_ > data_.Capacity()`, otherwise in-place reuse of the storage. -/
def Vec.copyAssign (v rhs : Vec) : Vec :=
  if rhs.size > v.cap then Vec.copy rhs
  else ⟨rhs.elems, v.cap⟩

/-- Outcome state of an operation whose element constructor threw.
`vec` is the observable state the vector is left in; `leaked` counts the
objects that were constructed in a freshly allocated block but whose
destructors were never run before that block's raw memory was freed. -/
structure Failed where
  vec : Vec
  leaked : Nat
deriving Repr, DecidableEq

/-- `PushBack`/`EmplaceBack` with a throwing element constructor, on the
copy-migration path.  Attempt order in the source: first the new element is
constructed at slot `size_` of the new block, then the `size_` old elements
are copied by `std::uninitialized_copy_n` (which destroys its own partial
copies on a throw); the source has no handler around the migration, so a
migration throw skips the destructor of the already-constructed new
element. -/
def Vec.pushBackF (v : Vec) (x : Elem) (fuel : Nat) : Except Failed Vec :=
  if v.size = v.cap then
    if fuel = 0 then .error ⟨v, 0⟩
    else if fuel < 1 + v.size then .error ⟨v, 1⟩
    else .ok ⟨v.elems ++ [x], grownCapacity v.size⟩
  else
    if fuel = 0 then .error ⟨v, 0⟩
    else .ok ⟨v.elems ++ [x], v.cap⟩

/-- `operator=(const Vector&)` with a throwing element copy.  On the
copy-and-swap path the temporary's copy constructor performs
`rhs.size_` copy-constructions (`std::uninitialized_copy_n` destroys its
partial work on a throw) and `*this` is not touched until the final swap.
On the in-place path `std::copy` copy-assigns the overlapping front
element by element, then the extra tail is copy-constructed; `size_` is
updated only on full success. -/
def Vec.copyAssignF (v rhs : Vec) (fuel : Nat) : Except Failed Vec :=
  if rhs.size > v.cap then
    if fuel < rhs.size then .error ⟨v, 0⟩
    else .ok ⟨rhs.elems, rhs.size⟩
  else
    if rhs.size < v.size then
      if fuel < rhs.size then
        .error ⟨⟨rhs.elems.take fuel ++ v.elems.drop fuel, v.cap⟩, 0⟩
      else .ok ⟨rhs.elems, v.cap⟩
    else
      if fuel < v.size then
        .error ⟨⟨rhs.elems.take fuel ++ v.elems.drop fuel, v.cap⟩, 0⟩
      else if fuel < rhs.size then
        .error ⟨⟨rhs.elems.take v.size, v.cap⟩, 0⟩
      else .ok ⟨rhs.elems, v.cap⟩

/-- The reallocating branch of `Emplace` (`size_ == Capacity()`) with a
throwing element copy, on the copy-migration path; `i = pos - begin()`.
Attempt order in the source: `i` copies of the slots before `pos` (their
`catch` destroys the partial copies), one construction of the new element
at slot `i` of the new block (no handler: a throw here skips the
destructors of the `i` migrated copies), then `size_ - i` copies of the
remaining slots (their `catch` destroys only the new element, and
`std::uninitialized_copy_n` destroys its own partial copies — the migrated
front stays undestroyed). -/
def Vec.emplaceReallocF (v : Vec) (i : Nat) (x : Elem) (fuel : Nat) :
    Except Failed Vec :=
  if fuel < i then .error ⟨v, 0⟩
  else if fuel = i then .error ⟨v, i⟩
  else if fuel < i + 1 + (v.size - i) then .error ⟨v, i⟩
  else .ok ⟨v.elems.take i ++ [x] ++ v.elems.drop i, grownCapacity v.size⟩

/-- The four element-affecting steps of the reallocating `PushBack`, for
tracking an argument that aliases a slot of the vector itself. -/
inductive Step
  | constructNew
  | migrate
  | destroyOld
  | swapBlocks
deriving Repr, DecidableEq

/-- Machine state while the reallocating `PushBack(v[j])` runs: the old
block's elements and whether they are still alive, the migrated copies in
the new block, the element constructed at slot `size_` of the new block,
and whether a step ever read a destroyed slot. -/
structure MState where
  oldElems : List Elem
  oldLive : Bool
  newFront : List Elem
  newBack : Option Elem
  failed : Bool
deriving Repr, DecidableEq

/-- One step of the reallocating `PushBack(v[j])`.  Reading the argument
or migrating requires the old block's elements to still be alive. -/
def runStep (j : Nat) (s : MState) : Step → MState
  | .constructNew =>
      if s.oldLive then { s with newBack := some (s.oldElems.getD j 0) }
      else { s with failed := true }
  | .migrate =>
      if s.oldLive then { s with newFront := s.oldElems }
      else { s with failed := true }
  | .destroyOld => { s with oldLive := false }
  | .swapBlocks => s

/-- The step order of the reallocating `PushBack` in the source: the new
element is constructed from the argument before migration and before
`destroy_n` runs on the old block. -/
def pushBackStepOrder : List Step :=
  [Step.constructNew, Step.migrate, Step.destroyOld, Step.swapBlocks]

/-- `PushBack(v[j])` — the argument is a reference into the vector's own
buffer.  Returns `none` if some step read a slot whose destructor had
already run. -/
def Vec.pushBackSelfRef (v : Vec) (j : Nat) : Option Vec :=
  if v.size = v.cap then
    let final := pushBackStepOrder.foldl (runStep j)
      ⟨v.elems, true, [], none, false⟩
    if final.failed then none
    else
      match final.newBack with
      | some b => some ⟨final.newFront ++ [b], grownCapacity v.size⟩
      | none => none
  else
    some ⟨v.elems ++ [v.elems.getD j 0], v.cap⟩

/-- States reachable by sequences of public operations, starting from the
constructors.  Preconditions (`PopBack` on a non-empty vector, positions
inside `[begin(), end()]`) are the contracts stated in the source. -/
inductive Reachable : Vec → Prop
  | empty : Reachable Vec.empty
  | sized (n : Nat) : Reachable (Vec.sized n)
  | copy {v} : Reachable v → Reachable (Vec.copy v)
  | moveNew {v} : Reachable v → Reachable (Vec.moveCtor v).1
  | moveOld {v} : Reachable v → Reachable (Vec.moveCtor v).2
  | assignCopy {a b} : Reachable a → Reachable b → Reachable (a.copyAssign b)
  | swapFst {a b} : Reachable a → Reachable b → Reachable (Vec.swapOp a b).1
  | swapSnd {a b} : Reachable a → Reachable b → Reachable (Vec.swapOp a b).2
  | reserve {v} (n : Nat) : Reachable v → Reachable (v.reserve n)
  | resize {v} (n : Nat) : Reachable v → Reachable (v.resize n)
  | pushBack {v} (x : Elem) : Reachable v → Reachable (v.pushBack x)
  | popBack {v} : Reachable v → v.size ≠ 0 → Reachable v.popBack
  | emplace {v} (i : Nat) (x : Elem) : Reachable v → i ≤ v.size →
      Reachable (v.emplace i x).1
  | erase {v} (i : Nat) : Reachable v → i < v.size → Reachable (v.erase i).1

/-- State after `n` `PushBack` calls on a default-constructed vector. -/
def appendN : Nat → Vec
  | 0 => Vec.empty
  | n + 1 => (appendN n).pushBack n

theorem insertIdx_eq_take_cons_drop (x : Elem) :
    ∀ (i : Nat) (l : List Elem), i ≤ l.length →
      l.insertIdx i x = l.take i ++ x :: l.drop i
  | 0, l, _ => by simp
  | i + 1, [], h => by simp at h
  | i + 1, a :: l, h => by
    rw [List.insertIdx_succ_cons,
      insertIdx_eq_take_cons_drop x i l (Nat.le_of_succ_le_succ h)]
    simp

theorem set_take_succ (l : List Elem) (i : Nat) (x : Elem) (h : i < l.length) :
    (l.take (i + 1)).set i x = l.take i ++ [x] := by
  rw [List.take_succ, List.getElem?_eq_getElem h]
  rw [List.set_append_right _ _ (by simp)]
  have h0 : i - i ⊓ l.length = 0 := by omega
  simp [h0]

theorem take_drop_getLastD (l : List Elem) (i : Nat) (h : i < l.length) :
    (l.drop i).take (l.length - 1 - i) ++ [l.getLastD 0] = l.drop i := by
  have hne : l.drop i ≠ [] := by
    intro he
    have := congrArg List.length he
    simp at this
    omega
  have h2 : (l.drop i).take (l.length - 1 - i) = (l.drop i).dropLast := by
    rw [List.dropLast_eq_take]
    congr 1
    simp
    omega
  have hl : l ≠ [] := by
    intro he
    subst he
    simp at h
  have h3 : l.getLastD 0 = (l.drop i).getLast hne := by
    rw [List.getLast_drop, List.getLastD_eq_getLast?, List.getLast?_eq_getLast _ hl]
    rfl
  rw [h2, h3, List.dropLast_concat_getLast]

theorem emplaceMiddle_eq (elems : List Elem) (i : Nat) (x : Elem)
    (h : i < elems.length) :
    emplaceMiddle elems i x = elems.insertIdx i x := by
  simp only [emplaceMiddle, moveBackOne]
  rw [List.take_append_of_le_length h,
      List.drop_append_of_le_length (Nat.le_of_lt h),
      List.take_append_of_le_length (by simp only [List.length_drop]; omega),
      show i + 1 + (elems.length - 1 - i) = elems.length from by omega,
      List.drop_left' rfl]
  rw [List.append_assoc,
      List.set_append_left _ _ (by simp only [List.length_take]; omega)]
  rw [set_take_succ elems i x h, take_drop_getLastD elems i h,
      insertIdx_eq_take_cons_drop x i elems (Nat.le_of_lt h)]
  simp

theorem erase_elems (v : Vec) (i : Nat) :
    (v.erase i).1.elems = v.elems.eraseIdx i := by
  show (moveLeftOne v.elems i).dropLast = v.elems.eraseIdx i
  rw [moveLeftOne, List.dropLast_concat, List.eraseIdx_eq_take_drop_succ]

theorem pushBack_elems (v : Vec) (x : Elem) :
    (v.pushBack x).elems = v.elems ++ [x] := by
  unfold Vec.pushBack Vec.pushBackR
  split <;> rfl

theorem pushBack_size (v : Vec) (x : Elem) :
    (v.pushBack x).size = v.size + 1 := by
  simp [Vec.size, pushBack_elems]

theorem pushBack_cap (v : Vec) (x : Elem) :
    (v.pushBack x).cap =
      if v.size = v.cap then grownCapacity v.size else v.cap := by
  unfold Vec.pushBack Vec.pushBackR
  split <;> simp_all

theorem appendN_size (n : Nat) : (appendN n).size = n := by
  induction n with
  | zero => rfl
  | succ k ih =>
    show ((appendN k).pushBack k).size = k + 1
    rw [pushBack_size, ih]

theorem appendN_reachable (n : Nat) : Reachable (appendN n) := by
  induction n with
  | zero => exact Reachable.empty
  | succ k ih => exact Reachable.pushBack k ih

theorem size_le_cap_of_reachable {v : Vec} (h : Reachable v) :
    v.size ≤ v.cap := by
  induction h with
  | empty => exact Nat.le_refl 0
  | sized n => simp [Vec.sized, Vec.size]
  | @copy v _ _ => simp [Vec.copy, Vec.size]
  | @moveNew v _ ih => exact ih
  | @moveOld v _ _ => exact Nat.le_refl 0
  | @assignCopy a b _ _ _ ihb =>
    unfold Vec.copyAssign
    by_cases hc : b.size > a.cap
    · rw [if_pos hc]
      simp [Vec.copy, Vec.size]
    · rw [if_neg hc]
      exact Nat.not_lt.mp hc
  | @swapFst a b _ _ _ ihb => exact ihb
  | @swapSnd a b _ _ iha _ => exact iha
  | @reserve v n _ ih =>
    unfold Vec.reserve
    by_cases hc : n > v.cap
    · rw [if_pos hc]
      exact Nat.le_of_lt (Nat.lt_of_le_of_lt ih hc)
    · rw [if_neg hc]
      exact ih
  | @resize v n _ ih =>
    have ih2 := ih
    simp only [Vec.size] at ih2
    simp only [Vec.resize, Vec.reserve, Vec.size]
    by_cases h1 : n > v.elems.length <;> by_cases h2 : n > v.cap <;>
      simp [Vec.size, h1, h2] <;> omega
  | @pushBack v x _ ih =>
    have ih2 := ih
    simp only [Vec.size] at ih2
    rw [Vec.size, pushBack_elems, pushBack_cap]
    simp only [List.length_append, List.length_cons, List.length_nil,
      Vec.size, grownCapacity]
    split_ifs <;> omega
  | @popBack v _ _ ih =>
    have ih2 := ih
    simp only [Vec.size] at ih2
    simp only [Vec.popBack, Vec.size, List.length_dropLast]
    omega
  | @emplace v i x _ hle ih =>
    have ih2 := ih
    simp only [Vec.size] at ih2
    simp only [Vec.size] at hle
    unfold Vec.emplace
    by_cases hc : v.size < v.cap
    · by_cases hi : i = v.size
      · rw [if_pos hc, if_pos hi]
        simp only [Vec.size, List.length_append, List.length_cons,
          List.length_nil] at hc ⊢
        omega
      · rw [if_pos hc, if_neg hi]
        show (emplaceMiddle v.elems i x).length ≤ v.cap
        have hlt : i < v.elems.length := by
          simp only [Vec.size] at hi
          omega
        rw [emplaceMiddle_eq v.elems i x hlt,
          List.length_insertIdx _ _ (Nat.le_of_lt hlt)]
        simp only [Vec.size] at hc
        omega
    · rw [if_neg hc]
      show (v.elems.take i ++ [x] ++ v.elems.drop i).length ≤
        grownCapacity v.size
      simp only [List.length_append, List.length_take, List.length_drop,
        List.length_cons, List.length_nil, Vec.size, grownCapacity]
      split <;> omega
  | @erase v i _ hlt ih =>
    have ih2 := ih
    simp only [Vec.size] at ih2
    show ((v.erase i).1.elems).length ≤ v.cap
    rw [erase_elems]
    exact Nat.le_trans (List.length_eraseIdx_le _ _) ih2

theorem appendN_cap : ∀ n, 1 ≤ n → (appendN n).cap = 2 ^ Nat.clog 2 n := by
  intro n h
  induction n with
  | zero => omega
  | succ k ih =>
    by_cases hk : k = 0
    · subst hk
      show (Vec.empty.pushBack 0).cap = 2 ^ Nat.clog 2 1
      rw [Nat.clog_one_right]
      rfl
    · have hk1 : 1 ≤ k := by omega
      have ihc := ih hk1
      have hsz : (appendN k).size = k := appendN_size k
      have hle : (appendN k).size ≤ (appendN k).cap :=
        size_le_cap_of_reachable (appendN_reachable k)
      show ((appendN k).pushBack k).cap = 2 ^ Nat.clog 2 (k + 1)
      unfold Vec.pushBack Vec.pushBackR
      by_cases heq : (appendN k).size = (appendN k).cap
      · rw [if_pos heq]
        show grownCapacity (appendN k).size = 2 ^ Nat.clog 2 (k + 1)
        have hpow : k = 2 ^ Nat.clog 2 k := by rw [← ihc]; omega
        have hclog : Nat.clog 2 (k + 1) = Nat.clog 2 k + 1 := by
          have hlt : Nat.clog 2 k < Nat.clog 2 (k + 1) :=
            (Nat.pow_lt_iff_lt_clog one_lt_two).mp (by omega)
          have hub : Nat.clog 2 (k + 1) ≤ Nat.clog 2 k + 1 :=
            (Nat.le_pow_iff_clog_le one_lt_two).mp (by rw [pow_succ]; omega)
          omega
        rw [hsz, hclog, pow_succ]
        unfold grownCapacity
        rw [if_neg hk]
        omega
      · rw [if_neg heq]
        show (appendN k).cap = 2 ^ Nat.clog 2 (k + 1)
        have hlt : k < (appendN k).cap := by omega
        have h1 : Nat.clog 2 (k + 1) ≤ Nat.clog 2 k :=
          (Nat.le_pow_iff_clog_le one_lt_two).mp (by rw [← ihc]; omega)
        have h2 : Nat.clog 2 k ≤ Nat.clog 2 (k + 1) :=
          Nat.clog_mono_right 2 (by omega)
        have h3 : Nat.clog 2 (k + 1) = Nat.clog 2 k := Nat.le_antisymm h1 h2
        rw [ihc, h3]

/-- C9: for every vector and every `n ≤ Capacity()`, `Reserve(n)` leaves
the state (capacity, size and all elements) unchanged: the source returns
without allocating or touching any element. -/
theorem reserve_noop (v : Vec) (n : Nat) (h : n ≤ v.cap) : v.reserve n = v := by
  simp [Vec.reserve, Nat.not_lt.mpr h]

theorem reserve_noop_witness :
    3 ≤ (Vec.mk [1, 2] 5).cap ∧ (Vec.mk [1, 2] 5).reserve 3 = Vec.mk [1, 2] 5 :=
  ⟨by decide, reserve_noop ⟨[1, 2], 5⟩ 3 (by decide)⟩

/-- C6: move construction steals the buffer in one swap: the new vector
equals the source's pre-move state, and the source is left empty with
size 0 and capacity 0; the model performs no per-element operation. -/
theorem moveCtor_steals (a : Vec) :
    (Vec.moveCtor a).1 = a ∧
      (Vec.moveCtor a).2.size = 0 ∧ (Vec.moveCtor a).2.cap = 0 :=
  ⟨rfl, rfl, rfl⟩

/-- C8: for every non-empty vector and every index `i < size_`,
`Erase` removes the element at `i` (shift left, destroy the vacated last
slot), keeps the capacity, decrements the size, and returns the index of
the erased position. -/
theorem erase_spec (v : Vec) (i : Nat) (h : i < v.size) :
    (v.erase i).1.elems = v.elems.eraseIdx i ∧
      (v.erase i).1.cap = v.cap ∧
      (v.erase i).1.size = v.size - 1 ∧
      (v.erase i).2 = i := by
  refine ⟨erase_elems v i, rfl, ?_, rfl⟩
  show ((v.erase i).1.elems).length = v.elems.length - 1
  rw [erase_elems, List.length_eraseIdx_of_lt h]

theorem erase_spec_witness :
    0 < (Vec.mk [1, 99, 2, 3] 4).size ∧
      ((Vec.mk [1, 99, 2, 3] 4).erase 0).1.elems = [99, 2, 3] ∧
      ((Vec.mk [1, 99, 2, 3] 4).erase 0).2 = 0 :=
  ⟨by decide,
    (erase_spec ⟨[1, 99, 2, 3], 4⟩ 0 (by decide)).1.trans (by decide),
    (erase_spec ⟨[1, 99, 2, 3], 4⟩ 0 (by decide)).2.2.2⟩

/-- C2: in the reallocating `PushBack`/`EmplaceBack` (`size_ == Capacity()`),
if the new element's constructor throws while constructing it in the new
block (the very first construction attempted), the call propagates the
error with size, capacity and all element values unchanged and nothing
leaked; the size is incremented only on the fully successful path, which
appends the element. -/
theorem pushBack_strong (v : Vec) (x : Elem) (h : v.size = v.cap) :
    v.pushBackF x 0 = .error ⟨v, 0⟩ ∧
      ∀ fuel, 1 + v.size ≤ fuel →
        v.pushBackF x fuel = .ok ⟨v.elems ++ [x], grownCapacity v.size⟩ := by
  refine ⟨by simp [Vec.pushBackF, h], fun fuel hf => ?_⟩
  have h1 : fuel ≠ 0 := by omega
  have h2 : ¬ fuel < 1 + v.cap := by omega
  simp [Vec.pushBackF, h, h1, h2]

theorem pushBack_strong_witness :
    (Vec.mk [5] 1).size = (Vec.mk [5] 1).cap ∧
      (Vec.mk [5] 1).pushBackF 7 0 = .error ⟨Vec.mk [5] 1, 0⟩ :=
  ⟨by decide, (pushBack_strong ⟨[5], 1⟩ 7 (by decide)).1⟩

/-- C3: copy assignment with `rhs.size_ > Capacity()` copies `rhs` into a
temporary and swaps it in: if any element copy throws (the budget runs
out before all `rhs.size_` copies), `*this` is left completely unchanged
and nothing leaks; on success `*this` equals `rhs` element-wise with
capacity `rhs.size_`. -/
theorem copyAssign_strong (v rhs : Vec) (h : v.cap < rhs.size) :
    (∀ fuel, fuel < rhs.size → v.copyAssignF rhs fuel = .error ⟨v, 0⟩) ∧
      ∀ fuel, rhs.size ≤ fuel →
        v.copyAssignF rhs fuel = .ok ⟨rhs.elems, rhs.size⟩ := by
  refine ⟨fun fuel hf => ?_, fun fuel hf => ?_⟩
  · simp [Vec.copyAssignF, h, hf]
  · simp [Vec.copyAssignF, h, Nat.not_lt.mpr hf]

theorem copyAssign_strong_witness :
    (Vec.mk [1] 1).cap < (Vec.mk [4, 5, 6] 3).size ∧
      (Vec.mk [1] 1).copyAssignF (Vec.mk [4, 5, 6] 3) 2 =
        .error ⟨Vec.mk [1] 1, 0⟩ ∧
      (Vec.mk [1] 1).copyAssignF (Vec.mk [4, 5, 6] 3) 3 =
        .ok (Vec.mk [4, 5, 6] 3) :=
  ⟨by decide,
    (copyAssign_strong ⟨[1], 1⟩ ⟨[4, 5, 6], 3⟩ (by decide)).1 2 (by decide),
    (copyAssign_strong ⟨[1], 1⟩ ⟨[4, 5, 6], 3⟩ (by decide)).2 3 (by decide)⟩

/-- C1: evaluating the reallocating `Emplace` at the full vector `[5]`
(capacity 1), inserting at index 1, with the element copy budget
exhausted exactly when the new element is constructed — i.e. after the
one-element migrated front succeeded: the call propagates the failure
with the migrated copy left undestroyed (`leaked = 1`).  The source has
no handler around the new element's construction, so the cleanup the
claim requires does not happen. -/
theorem emplace_realloc_leak :
    Vec.emplaceReallocF ⟨[5], 1⟩ 1 7 1 = .error ⟨⟨[5], 1⟩, 1⟩ := rfl

/-- C10: in the reallocating `PushBack` the new element is constructed
from the caller's argument before migration and before the old elements
are destroyed, so an argument referencing slot `j` of the vector itself
reads its pre-call value (`none`, a read of a destroyed slot, never
occurs) and that value ends up appended. -/
theorem pushBack_selfRef_ok (v : Vec) (j : Nat) (h : v.size = v.cap)
    (hj : j < v.size) :
    v.pushBackSelfRef j =
      some ⟨v.elems ++ [v.elems.getD j 0], grownCapacity v.size⟩ := by
  unfold Vec.pushBackSelfRef
  rw [if_pos h]
  rfl

theorem pushBack_selfRef_witness :
    (Vec.mk [1, 2, 3] 3).size = (Vec.mk [1, 2, 3] 3).cap ∧
      0 < (Vec.mk [1, 2, 3] 3).size ∧
      (Vec.mk [1, 2, 3] 3).pushBackSelfRef 0 = some ⟨[1, 2, 3, 1], 6⟩ :=
  ⟨rfl, by decide,
    (pushBack_selfRef_ok ⟨[1, 2, 3], 3⟩ 0 rfl (by decide)).trans (by decide)⟩

/-- C7: for every vector and every position `i ≤ size_`, `Emplace`/`Insert`
puts the new value at index `i`, keeps the relative order of all other
elements (the result is `insertIdx i x`), and returns the position of the
inserted element — in all three paths of the source (in place at the end,
in place in the middle via the temporary and the backward shift, and the
reallocating path). -/
theorem emplace_spec (v : Vec) (i : Nat) (x : Elem) (h : i ≤ v.size) :
    (v.emplace i x).1.elems = v.elems.insertIdx i x ∧ (v.emplace i x).2 = i := by
  unfold Vec.emplace
  by_cases hc : v.size < v.cap
  · by_cases hi : i = v.size
    · rw [if_pos hc, if_pos hi]
      refine ⟨?_, rfl⟩
      show v.elems ++ [x] = v.elems.insertIdx i x
      rw [hi]
      exact (List.insertIdx_length_self v.elems x).symm
    · rw [if_pos hc, if_neg hi]
      have hlt : i < v.elems.length := by
        simp only [Vec.size] at h hi
        omega
      exact ⟨emplaceMiddle_eq v.elems i x hlt, rfl⟩
  · rw [if_neg hc]
    refine ⟨?_, rfl⟩
    show v.elems.take i ++ [x] ++ v.elems.drop i = v.elems.insertIdx i x
    rw [insertIdx_eq_take_cons_drop x i v.elems h]
    simp

theorem emplace_spec_witness :
    1 ≤ (Vec.mk [1, 2, 3] 4).size ∧
      ((Vec.mk [1, 2, 3] 4).emplace 1 99).1.elems = [1, 99, 2, 3] ∧
      ((Vec.mk [1, 2, 3] 4).emplace 1 99).2 = 1 :=
  ⟨by decide,
    (emplace_spec ⟨[1, 2, 3], 4⟩ 1 99 (by decide)).1.trans (by decide),
    (emplace_spec ⟨[1, 2, 3], 4⟩ 1 99 (by decide)).2⟩

/-- C4: a `PushBack` that finds `size_ == Capacity()` reallocates to
capacity `max 1 (2 * size_)`; one that finds `size_ < Capacity()`
constructs in place, appends, and keeps the capacity; the call allocates
a new block exactly when the capacity changes; and a run of `n ≥ 1`
appends from a default-constructed vector ends with capacity
`2 ^ clog 2 n` — the doubling sequence 1, 2, 4, 8, …. -/
theorem growth_policy :
    (∀ (v : Vec) (x : Elem), v.size = v.cap →
        (v.pushBackR x).1.cap = max 1 (2 * v.size) ∧ (v.pushBackR x).2 = true) ∧
      (∀ (v : Vec) (x : Elem), v.size < v.cap →
        (v.pushBackR x).1.cap = v.cap ∧ (v.pushBackR x).2 = false ∧
          (v.pushBackR x).1.elems = v.elems ++ [x]) ∧
      (∀ (v : Vec) (x : Elem),
        (v.pushBackR x).2 = true ↔ (v.pushBackR x).1.cap ≠ v.cap) ∧
      ∀ n, 1 ≤ n → (appendN n).cap = 2 ^ Nat.clog 2 n := by
  refine ⟨fun v x h => ?_, fun v x h => ?_, fun v x => ?_, appendN_cap⟩
  · unfold Vec.pushBackR
    rw [if_pos h]
    refine ⟨?_, rfl⟩
    show grownCapacity v.size = max 1 (2 * v.size)
    unfold grownCapacity
    split <;> omega
  · unfold Vec.pushBackR
    rw [if_neg (Nat.ne_of_lt h)]
    exact ⟨rfl, rfl, rfl⟩
  · unfold Vec.pushBackR
    by_cases hc : v.size = v.cap
    · rw [if_pos hc]
      have : grownCapacity v.size ≠ v.cap := by
        unfold grownCapacity
        split <;> omega
      simpa using this
    · rw [if_neg hc]
      simp

theorem growth_policy_witness :
    (Vec.mk [5] 1).size = (Vec.mk [5] 1).cap ∧
      ((Vec.mk [5] 1).pushBackR 7).1.cap = 2 ∧
      (appendN 1).cap = 1 :=
  ⟨rfl, (growth_policy.1 ⟨[5], 1⟩ 7 rfl).1.trans (by decide),
    (growth_policy.2.2.2 1 (Nat.le_refl 1)).trans
      (by rw [Nat.clog_one_right, pow_zero])⟩

/-- C5: every state reachable by a sequence of public operations starting
from a constructor satisfies `size_ ≤ Capacity()`; in the model the slots
`[0, size_)` are exactly the `elems` list, in insertion/modification
order, so the live-element part of the invariant holds by construction of
the state. -/
theorem reachable_invariant (v : Vec) (h : Reachable v) : v.size ≤ v.cap :=
  size_le_cap_of_reachable h

theorem reachable_invariant_witness :
    (Vec.empty.pushBack 0).size ≤ (Vec.empty.pushBack 0).cap :=
  reachable_invariant _ (Reachable.pushBack 0 Reachable.empty)

end AdvVec
